import Mathlib

/-!
A shallow embedding of the command-line dispatch engine of this repository
(package `gin`: `app.go`, `category.go`, and the help/completion file).

Opaque collaborators (the bodies of `Before`, `After`, user `Action`s,
`Command.run`, `OnUsageError`, the exit-coder handler and the bash-completion
callback) are modelled by their observable outcome: either the error value
they return (`Option Err`) or, for hooks that only produce output, a trace
event.  `Run`'s side effects on the output sink and the hook invocations are
recorded in an event trace.  The ambient process environment is passed
explicitly as an association list.
-/

namespace Gin

/-- Errors that flow through dispatch.  `userErr` stands for an arbitrary
opaque error produced by a hook, an action or a command body. -/
inductive Err where
  | flagParse (tok : String)
  | normalizeConflict (name : String)
  | requiredFlagMissing (names : List String)
  | invalidActionType
  | userErr (tag : String)
deriving DecidableEq, Repr

/-- Observable events of one dispatch call, in order of occurrence:
writes to the output sink and invocations of the opaque callables. -/
inductive Ev where
  | writeErr (e : Err)
  | writeIncorrectUsage (e : Err)
  | emitCompletions
  | onUsageError
  | exitCoder
  | before
  | after
  | commandRun (name : String)
  | action
deriving DecidableEq, Repr

/-- The open-typed `Action interface{}` field: `handleAction` (app.go)
distinguishes `ActionFunc`, `func(*Context) error`, the deprecated
`func(*Context)`, and everything else.  The callable's own behaviour is
opaque, modelled by the error it returns. -/
inductive Action where
  | actionFunc (result : Option Err)
  | legacyFunc (result : Option Err)
  | deprecatedFunc
  | invalid
deriving DecidableEq, Repr

/-- handleAction (app.go 462-474): run the action according to its dynamic
type; an unsupported shape yields `errInvalidActionType`.  The deprecated
`func(*Context)` signature returns nil. -/
def handleAction : Action → Option Err
  | .actionFunc r => r
  | .legacyFunc r => r
  | .deprecatedFunc => none
  | .invalid => some .invalidActionType

/-- Modelled from the spec: the Flag Specification data model (§3).  The
concrete flag types (flag.go) are not under src/; a specification carries a
comma-separated name list (first = canonical), an optional environment
variable, hidden/required marks, and whether a value token is consumed
(string/int flags do, bool flags do not). -/
structure Flag where
  name : String
  envVar : String := ""
  hidden : Bool := false
  required : Bool := false
  takesValue : Bool := false
deriving DecidableEq, Repr

/-- A command: name, deprecated short name, aliases, stamped help name,
category tag and hidden mark, as used by `App.setup`/`App.command`.  The
body of `Command.run` (command.go) is not under src/ and is modelled by the
opaque outcome `run` it returns to the caller. -/
structure Command where
  name : String
  shortName : String := ""
  aliases : List String := []
  helpName : String := ""
  category : String := ""
  hidden : Bool := false
  run : Option Err := none
deriving DecidableEq, Repr

/-- CommandCategory (category.go): a category name with its commands. -/
structure CommandCategory where
  name : String
  commands : List Command
deriving DecidableEq, Repr

/-- An author entry (app.go 443-447). -/
structure Author where
  name : String
  email : String
deriving DecidableEq, Repr

/-- The App aggregate (app.go 20-96), restricted to the fields the dispatch
paths read or write.  The function-valued hooks are modelled by their
outcome: `before`/`after` are `none` when unregistered, otherwise
`some r` where `r` is the error the hook returns; `bashComplete` and
`exitErrHandler` record whether the corresponding callable is registered;
`onUsageError` is the registered hook as a function of the parse error. -/
structure App where
  name : String := ""
  helpName : String := ""
  version : String := ""
  commands : List Command := []
  flags : List Flag := []
  enableBashCompletion : Bool := false
  hideHelp : Bool := false
  hideVersion : Bool := false
  categories : List CommandCategory := []
  bashComplete : Bool := false
  before : Option (Option Err) := none
  after : Option (Option Err) := none
  action : Option Action := none
  onUsageError : Option (Err → Option Err) := none
  author : String := ""
  email : String := ""
  authors : List Author := []
  exitErrHandler : Bool := false
  didSetup : Bool := false

/-- Split a character list at commas (`strings.Split` on a flag name list). -/
def splitCommaAux (acc : List Char) : List Char → List (List Char)
  | [] => [acc.reverse]
  | c :: cs => if c = ',' then acc.reverse :: splitCommaAux [] cs else splitCommaAux (c :: acc) cs

/-- `strings.TrimSpace` restricted to the blank character, which is the only
whitespace that occurs inside flag name lists. -/
def trimSpaces (l : List Char) : List Char :=
  ((l.dropWhile (fun c => c = ' ')).reverse.dropWhile (fun c => c = ' ')).reverse

/-- Split a comma-separated flag name list into its trimmed components
(`strings.Split` + `strings.TrimSpace` as used throughout flag handling). -/
def flagNames (f : Flag) : List String :=
  (splitCommaAux [] f.name.data).map (fun cs => String.mk (trimSpaces cs))

/-- The canonical (first) name of a flag specification. -/
def canonicalName (f : Flag) : String :=
  (flagNames f).headD ""

example : flagNames { name := "help, h" } = ["help", "h"] := by decide
example : canonicalName { name := "laddr,l" } = "laddr" := by decide

/-- Modelled from the spec: `Command.Names` (command.go is not under src/) —
the primary name, the deprecated short name when present, then the aliases,
as exercised by main.go's use of `ShortName` and by §4.4's
"by primary name or alias" wording. -/
def Command.names (c : Command) : List String :=
  [c.name] ++ (if c.shortName = "" then [] else [c.shortName]) ++ c.aliases

/-- Modelled from the spec: `Command.hasName` (command.go is not under
src/) — membership of the queried string in the command's names. -/
def Command.hasName (c : Command) (n : String) : Bool :=
  c.names.contains n

/-- App.command (app.go 370-379): the first command in declaration order
for which `hasName` holds, `none` when there is no match. -/
def App.command (a : App) (name : String) : Option Command :=
  a.commands.find? (fun c => c.hasName name)

/-- App.hasFlag (app.go 421-429): structural equality against each declared
flag. -/
def App.hasFlag (a : App) (f : Flag) : Bool :=
  a.flags.contains f

/-- App.appendFlag (app.go 431-435): append the flag unless an equal one is
already declared. -/
def App.appendFlag (a : App) (f : Flag) : App :=
  if a.hasFlag f then a else { a with flags := a.flags ++ [f] }

/-- The built-in help command (the completion/help file): name `help`,
alias `h`; its Action is the legacy `func(*Context) error` signature and
always returns nil.  Its help name is left empty, to be stamped by the
parent. -/
def helpCommand : Command :=
  { name := "help", aliases := ["h"] }

/-- The outcome-model of `helpCommand.Action`: a `func(*Context) error`
that returns nil on every path. -/
def helpCommandAction : Action := .legacyFunc none

/-- Modelled from the spec: the package-level `HelpFlag` (flag.go is not
under src/) — the built-in help boolean flag, `--help` or `-h` (§6). -/
def helpFlag : Flag := { name := "help, h" }

/-- Modelled from the spec: the package-level `VersionFlag` (flag.go is not
under src/) — the built-in version boolean flag, `--version` or `-v` (§6). -/
def versionFlag : Flag := { name := "version, v" }

/-- Stamp a command's display name from the parent's (app.go 137-143 and
282-288): only commands with an empty help name are stamped. -/
def stampHelpName (parentHelpName : String) (c : Command) : Command :=
  if c.helpName = "" then { c with helpName := parentHelpName ++ " " ++ c.name } else c

/-- CommandCategories.AddCommand (category.go 25-33): append the command to
the first category with the given name, or append a fresh category at the
end. -/
def addCommand : List CommandCategory → String → Command → List CommandCategory
  | [], category, c => [{ name := category, commands := [c] }]
  | cc :: rest, category, c =>
    if cc.name = category then { cc with commands := cc.commands ++ [c] } :: rest
    else cc :: addCommand rest category c

/-- The category-index construction loop of setup (app.go 161-164). -/
def buildCategories (cmds : List Command) : List CommandCategory :=
  cmds.foldl (fun cats c => addCommand cats c.category c) []

/-- Lexicographic comparison of character lists by code point. -/
def charListLe : List Char → List Char → Bool
  | [], _ => true
  | _ :: _, [] => false
  | c :: cs, d :: ds =>
    if c.toNat = d.toNat then charListLe cs ds else decide (c.toNat < d.toNat)

theorem charListLe_total : ∀ s t : List Char, charListLe s t = true ∨ charListLe t s = true
  | [], _ => Or.inl rfl
  | _ :: _, [] => Or.inr rfl
  | c :: cs, d :: ds => by
    by_cases h : c.toNat = d.toNat
    · rcases charListLe_total cs ds with hl | hr
      · exact Or.inl (by simp [charListLe, h, hl])
      · exact Or.inr (by simp [charListLe, h.symm, hr])
    · rcases Nat.lt_or_ge c.toNat d.toNat with hlt | hge
      · exact Or.inl (by simp [charListLe, h, hlt])
      · have hne : d.toNat ≠ c.toNat := fun hh => h hh.symm
        have hgt : d.toNat < c.toNat := lt_of_le_of_ne hge hne
        exact Or.inr (by simp [charListLe, hne, hgt])

theorem charListLe_trans : ∀ s t u : List Char,
    charListLe s t = true → charListLe t u = true → charListLe s u = true
  | [], _, _, _, _ => rfl
  | _ :: _, [], _, h1, _ => by simp [charListLe] at h1
  | _ :: _, _ :: _, [], _, h2 => by simp [charListLe] at h2
  | c :: cs, d :: ds, e :: es, h1, h2 => by
    simp only [charListLe] at h1 h2 ⊢
    by_cases hcd : c.toNat = d.toNat
    · by_cases hde : d.toNat = e.toNat
      · simp only [if_pos hcd] at h1
        simp only [if_pos hde] at h2
        simp only [if_pos (hcd.trans hde)]
        exact charListLe_trans cs ds es h1 h2
      · simp only [if_neg hde, decide_eq_true_eq] at h2
        have hne : c.toNat ≠ e.toNat := by omega
        simp only [if_neg hne, decide_eq_true_eq]
        omega
    · simp only [if_neg hcd, decide_eq_true_eq] at h1
      by_cases hde : d.toNat = e.toNat
      · have hne : c.toNat ≠ e.toNat := by omega
        simp only [if_neg hne, decide_eq_true_eq]
        omega
      · simp only [if_neg hde, decide_eq_true_eq] at h2
        have hne : c.toNat ≠ e.toNat := by omega
        simp only [if_neg hne, decide_eq_true_eq]
        omega

/-- The sort order of the category index: `CommandCategories.Less`
(category.go 12-14) delegates to `lexicographicLess`, which is not under
src/ and is modelled from the spec as the lexicographic order on category
names. -/
def catLe (x y : CommandCategory) : Prop :=
  charListLe x.name.data y.name.data = true

instance : DecidableRel catLe :=
  fun x y => inferInstanceAs (Decidable (charListLe x.name.data y.name.data = true))

instance : IsTotal CommandCategory catLe :=
  ⟨fun x y => charListLe_total x.name.data y.name.data⟩

instance : IsTrans CommandCategory catLe :=
  ⟨fun _ _ _ h1 h2 => charListLe_trans _ _ _ h1 h2⟩

/-- setup, author step (app.go 133-135): record the deprecated
author/email pair. -/
def setupAuthors (a : App) : App :=
  if a.author ≠ "" ∨ a.email ≠ "" then
    { a with authors := a.authors ++ [{ name := a.author, email := a.email }] }
  else a

/-- setup, help-name stamping loop (app.go 137-144). -/
def setupStampNames (a : App) : App :=
  { a with commands := a.commands.map (stampHelpName a.helpName) }

/-- setup, help injection (app.go 146-151): append the built-in help
command and flag when no command is named help and help is not hidden.
The Go guard `HelpFlag != BoolFlag{}` compares against the non-zero
package default and always holds. -/
def setupInjectHelp (a : App) : App :=
  if (a.command "help").isNone && !a.hideHelp then
    App.appendFlag { a with commands := a.commands ++ [helpCommand] } helpFlag
  else a

/-- setup, version hiding (app.go 153-155). -/
def setupHideVersion (a : App) : App :=
  if a.version = "" then { a with hideVersion := true } else a

/-- setup, version flag injection (app.go 157-159). -/
def setupVersionFlag (a : App) : App :=
  if !a.hideVersion then a.appendFlag versionFlag else a

/-- setup, category index construction (app.go 161-165).  `sort.Sort` is
modelled by insertion sort; category names are pairwise distinct, so any
sorted permutation is this one. -/
def setupCategories (a : App) : App :=
  { a with categories := List.insertionSort catLe (buildCategories a.commands) }

/-- The body of App.setup on a not-yet-set-up App (app.go 131-173).  The
metadata-map and output-sink defaulting have no observable counterpart in
this model. -/
def setupSteps (a : App) : App :=
  setupCategories (setupVersionFlag (setupHideVersion (setupInjectHelp
    (setupStampNames (setupAuthors a)))))

/-- App.setup (app.go 126-174): return early when setup already happened,
otherwise mark it done and run the steps. -/
def App.setup (a : App) : App :=
  if a.didSetup then a else setupSteps { a with didSetup := true }

/-- The result of flag parsing: the flag keys set on the flag set (in the
alias form they were typed), the unconsumed positional tail, and the parse
error, if any. -/
structure ParseOut where
  supplied : List String
  positional : List String
  err : Option Err
deriving DecidableEq, Repr

/-- The flag specification owning a typed key, searched by any of its
comma-separated names. -/
def findFlag (flags : List Flag) (key : String) : Option Flag :=
  flags.find? (fun f => (flagNames f).contains key)

/-- Split a flag token body at the first `=` into the key and whether a
value was attached. -/
def splitEq (body : List Char) : String × Bool :=
  match body.span (fun c => c ≠ '=') with
  | (key, []) => (String.mk key, false)
  | (key, _) => (String.mk key, true)

/-- Modelled from the spec: the parsing loop (flagSet, parseIter and the Go
flag package are not under src/), after §4.1.  A token beginning with one
or two leading dashes is a flag reference; the rest are positional and end
flag consumption.  A flag requiring a value consumes the next token unless
the value is attached with `=`.  Unknown flag references, and a trailing
value-taking flag with no value token, fail with a `FlagParseError` naming
the offending token.  Short-option clustering is outside the fragment the
claims touch and is not modelled. -/
def parseTokens (flags : List Flag) (supplied : List String) : List String → ParseOut
  | [] => { supplied := supplied, positional := [], err := none }
  | tok :: rest =>
    match tok.data with
    | '-' :: body0 =>
      let body := match body0 with
                  | '-' :: b => b
                  | b => b
      let (key, hasEq) := splitEq body
      match findFlag flags key with
      | none => { supplied := supplied, positional := [], err := some (.flagParse tok) }
      | some f =>
        if f.takesValue && !hasEq then
          match rest with
          | [] => { supplied := supplied, positional := [], err := some (.flagParse tok) }
          | _ :: rest2 => parseTokens flags (supplied ++ [key]) rest2
        else parseTokens flags (supplied ++ [key]) rest
    | _ => { supplied := supplied, positional := tok :: rest, err := none }

/-- parseIter over an argument tail (everything after the program name). -/
def parseArgs (flags : List Flag) (args : List String) : ParseOut :=
  parseTokens flags [] args

/-- Modelled from the spec: normalizeFlags (flag.go is not under src/) —
resolve aliases to canonical keys (§4.2 step 4); it fails when two distinct
forms of the same flag were both supplied, naming the flag. -/
def normalizeFlags (flags : List Flag) (supplied : List String) : Option Err :=
  match flags.find? (fun f => ((flagNames f).filter (fun k => supplied.contains k)).length ≥ 2) with
  | some f => some (.normalizeConflict (canonicalName f))
  | none => none

/-- A required flag is satisfied when one of its forms was supplied on the
command line, or its declared environment variable is set (§4.1: explicit
CLI values, then environment values, count as a non-default entry). -/
def flagSatisfied (env : List (String × String)) (supplied : List String) (f : Flag) : Bool :=
  (flagNames f).any (fun k => supplied.contains k) ||
    (f.envVar != "" && env.any (fun kv => kv.1 == f.envVar))

/-- The required flags that are satisfied neither by a CLI token nor by the
environment, by canonical name. -/
def missingRequired (env : List (String × String)) (flags : List Flag)
    (supplied : List String) : List String :=
  (flags.filter (fun f => f.required && !flagSatisfied env supplied f)).map canonicalName

/-- Modelled from the spec: checkRequiredFlags (flag.go is not under src/)
— the separate pass after parsing (§4.1): every specification marked
required must have a non-default entry, else a `RequiredFlagMissing` error
identifying the flags. -/
def checkRequiredFlags (env : List (String × String)) (flags : List Flag)
    (supplied : List String) : Option Err :=
  let ms := missingRequired env flags supplied
  if ms.isEmpty then none else some (.requiredFlagMissing ms)

/-- Modelled from the spec: the name of `BashCompletionFlag` (flag.go is
not under src/), default `generate-bash-completion` (§6). -/
def bashCompletionFlagName : String := "generate-bash-completion"

/-- checkShellCompleteFlag (the completion/help file, 157-170): when
completion is enabled, recognize the completion marker as the final token
only and strip it.  The Go code indexes `arguments[len(arguments)-1]` with
no emptiness guard; on an empty vector the model returns `none` where the
code panics. -/
def checkShellCompleteFlag (a : App) (arguments : List String) : Option (Bool × List String) :=
  if !a.enableBashCompletion then some (false, arguments)
  else
    match arguments.getLast? with
    | none => none
    | some lastArg =>
      if lastArg ≠ "--" ++ bashCompletionFlagName then some (false, arguments)
      else some (true, arguments.dropLast)

/-- checkCompletions (the completion/help file, 172-187): nothing to do
outside completion mode; in completion mode, a first positional argument
naming a known command hands the completion over to that command; otherwise
suggestions are shown and dispatch stops. -/
def checkCompletions (a : App) (shellComplete : Bool) (positional : List String) : Bool :=
  shellComplete &&
    (match positional with
     | [] => true
     | n :: _ => (a.command n).isNone)

/-- The outcome of one dispatch call: the returned error, the App state at
return (dispatch may mutate it), and the event trace. -/
structure RunOut where
  res : Option Err
  app : App
  trace : List Ev

/-- App.handleExitCoder (app.go 437-441) as a trace fragment: an event only
when an `ExitErrHandler` is registered. -/
def exitEv (a : App) : List Ev :=
  if a.exitErrHandler then [.exitCoder] else []

/-- showCompletions (the completion/help file, 128-134) as a trace
fragment: the registered `BashComplete` callable is invoked; nothing
happens when none is registered. -/
def completionTrace (a : App) : List Ev :=
  if a.bashComplete then [.emitCompletions] else []

/-- The default-Action dispatch tail of Run (app.go 258-266): a nil Action
is replaced by the help command's Action on the App itself, then
handleAction runs and the exit coder sees the resulting error. -/
def runAction (a : App) (tr0 : List Ev) : Option Err × App × List Ev :=
  match a.action with
  | none =>
    (handleAction helpCommandAction, { a with action := some helpCommandAction },
      tr0 ++ [.action] ++ exitEv a)
  | some act => (handleAction act, a, tr0 ++ [.action] ++ exitEv a)

/-- The trace of a Before hook that runs and succeeds: an event when one is
registered. -/
def beforeTrace (a : App) : List Ev :=
  if a.before.isSome then [Ev.before] else []

/-- The Before-then-dispatch section of Run (app.go 240-266), producing the
value of `err` before the deferred After hook adjusts it: a failing Before
goes through the exit coder and aborts; a first positional argument naming
a command delegates to that command's run; otherwise the default Action
runs. -/
def runCore (a : App) (positional : List String) : Option Err × App × List Ev :=
  match a.before with
  | some (some berr) => (some berr, a, [.before] ++ exitEv a)
  | _ =>
    match positional with
    | [] => runAction a (beforeTrace a)
    | name :: _ =>
      match a.command name with
      | some c => (c.run, a, beforeTrace a ++ [.commandRun c.name])
      | none => runAction a (beforeTrace a)

/-- The deferred After hook of Run (app.go 230-238): when registered it
runs on every return from the guarded region; its error becomes the result
only when the result so far is nil. -/
def applyAfter (a : App) : Option Err × App × List Ev → RunOut
  | (res, a2, tr) =>
    match a.after with
    | none => { res := res, app := a2, trace := tr }
    | some afterRes =>
      let final := match res, afterRes with
                   | none, some aerr => some aerr
                   | r, _ => r
      { res := final, app := a2, trace := tr ++ [.after] }

/-- Run after argument slicing (app.go 202-266): normalization failure is
printed and returned as-is; completion handling returns nil; a parse error
goes through OnUsageError when registered, else prints Incorrect Usage; a
missing required flag returns immediately; then the After hook guards the
Before-command-Action region. -/
def afterParse (env : List (String × String)) (a : App) (shellComplete : Bool)
    (p : ParseOut) : RunOut :=
  match normalizeFlags a.flags p.supplied with
  | some e => { res := some e, app := a, trace := [.writeErr e] }
  | none =>
    if checkCompletions a shellComplete p.positional then
      { res := none, app := a, trace := completionTrace a }
    else
      match p.err with
      | some e =>
        match a.onUsageError with
        | some h => { res := h e, app := a, trace := [.onUsageError] ++ exitEv a }
        | none => { res := some e, app := a, trace := [.writeIncorrectUsage e] }
      | none =>
        match checkRequiredFlags env a.flags p.supplied with
        | some ce => { res := some ce, app := a, trace := [] }
        | none => applyAfter a (runCore a p.positional)

/-- App.Run (app.go 186-267): set up, strip the completion marker, slice
off the program name, parse, and continue in `afterParse`.  The result is
`none` exactly where the Go code panics on an out-of-bounds index: an empty
argument vector is indexed at `len-1` by checkShellCompleteFlag when
completion is enabled, and sliced at `[1:]` beyond its capacity
otherwise. -/
def App.run (env : List (String × String)) (a0 : App) (arguments : List String) :
    Option RunOut :=
  let a := a0.setup
  match checkShellCompleteFlag a arguments with
  | none => none
  | some (shellComplete, stripped) =>
    if arguments.isEmpty then none
    else some (afterParse env a shellComplete (parseArgs a.flags (stripped.drop 1)))

/-- handleAction applied to the raw `Action interface{}` field: a nil
interface matches no case of the type switch and yields
`errInvalidActionType`. -/
def handleActionOpt : Option Action → Option Err
  | none => some .invalidActionType
  | some act => handleAction act

/-- checkSubcommandHelp (the completion/help file, 149-155): whether the
help flag was set, under either form. -/
def checkSubcommandHelp (supplied : List String) : Bool :=
  supplied.contains "h" || supplied.contains "help"

/-- The default-Action tail of runAsSubcommand (app.go 363-367): unlike
Run, a nil Action is not defaulted, so the type switch falls through to
`errInvalidActionType`. -/
def runActionSub (a : App) (tr0 : List Ev) : Option Err × List Ev :=
  (handleActionOpt a.action, tr0 ++ [.action] ++ exitEv a)

/-- The Before-then-dispatch section of runAsSubcommand (app.go
345-367). -/
def runCoreSub (a : App) (positional : List String) : Option Err × List Ev :=
  match a.before with
  | some (some berr) => (some berr, [.before] ++ exitEv a)
  | _ =>
    match positional with
    | [] => runActionSub a (beforeTrace a)
    | name :: _ =>
      match a.command name with
      | some c => (c.run, beforeTrace a ++ [.commandRun c.name])
      | none => runActionSub a (beforeTrace a)

/-- The deferred After hook of runAsSubcommand (app.go 333-343): a failing
After additionally routes the current error through the exit coder. -/
def applyAfterSub (a : App) : Option Err × List Ev → Option Err × List Ev
  | (res, tr) =>
    match a.after with
    | none => (res, tr)
    | some afterRes =>
      match afterRes with
      | none => (res, tr ++ [.after])
      | some aerr =>
        ((match res with
          | none => some aerr
          | r => r), tr ++ [.after] ++ exitEv a)

/-- The state mutation runAsSubcommand performs before parsing (app.go
272-289): inject help when the command list is non-empty (same guard as
setup), then stamp help names. -/
def subSetup (a0 : App) : App :=
  let a1 := if a0.commands.isEmpty then a0
            else if (a0.command "help").isNone && !a0.hideHelp then
              App.appendFlag { a0 with commands := a0.commands ++ [helpCommand] } helpFlag
            else a0
  { a1 with commands := a1.commands.map (stampHelpName a1.helpName) }

/-- App.runAsSubcommand (app.go 271-368): inject help when the command list
is non-empty, stamp help names, parse the tail of the parent context's
arguments with the inherited completion flag, then mirror Run with the
additional subcommand-help short-circuit. -/
def App.runAsSubcommand (env : List (String × String)) (a0 : App)
    (ctxArgs : List String) (shellComplete : Bool) : RunOut :=
  let a := subSetup a0
  let p := parseArgs a.flags ctxArgs.tail
  match normalizeFlags a.flags p.supplied with
  | some e => { res := some e, app := a, trace := [.writeErr e] }
  | none =>
    if checkCompletions a shellComplete p.positional then
      { res := none, app := a, trace := completionTrace a }
    else
      match p.err with
      | some e =>
        match a.onUsageError with
        | some h => { res := h e, app := a, trace := [.onUsageError] ++ exitEv a }
        | none => { res := some e, app := a, trace := [.writeIncorrectUsage e] }
      | none =>
        if !a.commands.isEmpty && checkSubcommandHelp p.supplied then
          { res := none, app := a, trace := [] }
        else
          match checkRequiredFlags env a.flags p.supplied with
          | some ce => { res := some ce, app := a, trace := [] }
          | none =>
            let r := applyAfterSub a (runCoreSub a p.positional)
            { res := r.1, app := a, trace := r.2 }

/-- Erase the stamped display name of a command, for comparisons up to
help-name stamping. -/
def eraseHelpName (c : Command) : Command := { c with helpName := "" }

/-- Deduplicate a list keeping first occurrences, relative to an already
seen set. -/
def dedupSeen (seen : List String) : List String → List String
  | [] => []
  | x :: xs => if x ∈ seen then dedupSeen seen xs else x :: dedupSeen (seen ++ [x]) xs

/-- Deduplicate a list keeping the first occurrence of each element. -/
def dedupKeepFirst (l : List String) : List String :=
  dedupSeen [] l

/-- The error-shadowing rule of the deferred After hooks: the After result
becomes the reported error only when the result so far is nil. -/
def shadowRes (res afterRes : Option Err) : Option Err :=
  match res, afterRes with
  | none, some aerr => some aerr
  | r, _ => r

/-- An App with a required flag and a registered After hook: a run that
fails the required-flag check returns before the After hook is
registered. -/
def cexC1App : App :=
  { flags := [{ name := "r", required := true }], after := some none,
    hideHelp := true, action := some (.actionFunc none) }

/-- An App with a registered After hook whose runs pass validation. -/
def witC1App : App :=
  { hideHelp := true, after := some none, action := some (.actionFunc none) }

/-- An App whose Action and After hook both fail. -/
def witC3App : App :=
  { hideHelp := true, action := some (.actionFunc (some (.userErr "act"))),
    after := some (some (.userErr "aft")) }

/-- The `laddr` flag of main.go: required, with environment source
`GIN_LADDR`. -/
def witC4Flag : Flag :=
  { name := "laddr,l", envVar := "GIN_LADDR", required := true, takesValue := true }

/-- An App with a required flag fed by an environment variable, as the
`laddr` flag of main.go. -/
def witC4App : App :=
  { hideHelp := true, flags := [witC4Flag],
    before := some none, action := some (.actionFunc none) }

/-- An App where an earlier command holds `x` as an alias and a later
command has `x` as its primary name. -/
def cexC5App : App :=
  { commands := [{ name := "a", aliases := ["x"] }, { name := "x" }] }

/-- An App with completion enabled, the default completion callable
registered, and one declared command, as built by NewApp plus main.go's
command list. -/
def witC7App : App :=
  { enableBashCompletion := true, bashComplete := true, hideHelp := true,
    commands := [{ name := "run", shortName := "r" }] }

/-- An App with an aliased value flag and a registered OnUsageError hook
that passes the error through. -/
def witC8App : App :=
  { hideHelp := true, flags := [{ name := "port,p", takesValue := true }],
    onUsageError := some (fun e => some e) }

/-- An App with no Action configured. -/
def cexC2App : App := { hideHelp := true }

/-- An App with a configured Action, to exercise the frame theorem. -/
def witC2App : App := { hideHelp := true, action := some (.actionFunc none) }

/-- The outcome Run produces on `witC2App.setup` with arguments `[prog]`. -/
def witC2Out : RunOut :=
  afterParse [] witC2App.setup false (parseArgs witC2App.setup.flags [])

/-- An App with categorized commands, a version and a help command to be
injected. -/
def witC9App : App :=
  { helpName := "gin", version := "1.0",
    commands := [{ name := "b", category := "z" }, { name := "a", category := "y" },
                 { name := "c", category := "z" }] }

theorem appendFlag_commands (a : App) (f : Flag) :
    (a.appendFlag f).commands = a.commands := by
  unfold App.appendFlag; split <;> rfl

theorem appendFlag_didSetup (a : App) (f : Flag) :
    (a.appendFlag f).didSetup = a.didSetup := by
  unfold App.appendFlag; split <;> rfl

theorem appendFlag_hideHelp (a : App) (f : Flag) :
    (a.appendFlag f).hideHelp = a.hideHelp := by
  unfold App.appendFlag; split <;> rfl

theorem setupAuthors_didSetup (a : App) : (setupAuthors a).didSetup = a.didSetup := by
  unfold setupAuthors; split <;> rfl

theorem setupAuthors_hideHelp (a : App) : (setupAuthors a).hideHelp = a.hideHelp := by
  unfold setupAuthors; split <;> rfl

theorem setupStampNames_didSetup (a : App) : (setupStampNames a).didSetup = a.didSetup := rfl

theorem setupStampNames_hideHelp (a : App) : (setupStampNames a).hideHelp = a.hideHelp := rfl

theorem setupInjectHelp_didSetup (a : App) : (setupInjectHelp a).didSetup = a.didSetup := by
  unfold setupInjectHelp; split
  · exact appendFlag_didSetup _ _
  · rfl

theorem setupInjectHelp_hideHelp (a : App) : (setupInjectHelp a).hideHelp = a.hideHelp := by
  unfold setupInjectHelp; split
  · exact appendFlag_hideHelp _ _
  · rfl

theorem setupHideVersion_didSetup (a : App) : (setupHideVersion a).didSetup = a.didSetup := by
  unfold setupHideVersion; split <;> rfl

theorem setupHideVersion_commands (a : App) : (setupHideVersion a).commands = a.commands := by
  unfold setupHideVersion; split <;> rfl

theorem setupHideVersion_hideHelp (a : App) : (setupHideVersion a).hideHelp = a.hideHelp := by
  unfold setupHideVersion; split <;> rfl

theorem setupVersionFlag_didSetup (a : App) : (setupVersionFlag a).didSetup = a.didSetup := by
  unfold setupVersionFlag; split
  · exact appendFlag_didSetup _ _
  · rfl

theorem setupVersionFlag_commands (a : App) : (setupVersionFlag a).commands = a.commands := by
  unfold setupVersionFlag; split
  · exact appendFlag_commands _ _
  · rfl

theorem setupVersionFlag_hideHelp (a : App) : (setupVersionFlag a).hideHelp = a.hideHelp := by
  unfold setupVersionFlag; split
  · exact appendFlag_hideHelp _ _
  · rfl

theorem setupCategories_didSetup (a : App) : (setupCategories a).didSetup = a.didSetup := rfl

theorem setupCategories_commands (a : App) : (setupCategories a).commands = a.commands := rfl

theorem setupCategories_hideHelp (a : App) : (setupCategories a).hideHelp = a.hideHelp := rfl

theorem setup_didSetup (a : App) : a.setup.didSetup = true := by
  unfold App.setup
  by_cases h : a.didSetup
  · simp [h]
  · simp only [h, if_false, Bool.false_eq_true, setupSteps, setupCategories_didSetup,
      setupVersionFlag_didSetup, setupHideVersion_didSetup, setupInjectHelp_didSetup,
      setupStampNames_didSetup, setupAuthors_didSetup]

theorem setup_of_didSetup {a : App} (h : a.didSetup = true) : a.setup = a := by
  simp [App.setup, h]

theorem setup_idem (a : App) : a.setup.setup = a.setup :=
  setup_of_didSetup (setup_didSetup a)

theorem setup_categories_eq {a : App} (h : a.didSetup = false) :
    a.setup.categories = List.insertionSort catLe (buildCategories a.setup.commands) := by
  unfold App.setup
  simp only [h, Bool.false_eq_true, if_false]
  rfl

theorem run_eq_afterParse (env : List (String × String)) (a : App) (args : List String)
    (sc : Bool) (stripped : List String) (h0 : args ≠ [])
    (h1 : checkShellCompleteFlag a.setup args = some (sc, stripped)) :
    App.run env a args
      = some (afterParse env a.setup sc (parseArgs a.setup.flags (stripped.drop 1))) := by
  unfold App.run
  dsimp only
  rw [h1]
  simp [h0]

theorem afterParse_normErr {a : App} {p : ParseOut} {e : Err}
    (env : List (String × String)) (sc : Bool)
    (hn : normalizeFlags a.flags p.supplied = some e) :
    afterParse env a sc p = { res := some e, app := a, trace := [.writeErr e] } := by
  unfold afterParse
  rw [hn]

theorem afterParse_completion {a : App} {p : ParseOut}
    (env : List (String × String)) (sc : Bool)
    (hn : normalizeFlags a.flags p.supplied = none)
    (hc : checkCompletions a sc p.positional = true) :
    afterParse env a sc p = { res := none, app := a, trace := completionTrace a } := by
  unfold afterParse
  rw [hn]
  simp [hc]

theorem afterParse_usageHook {a : App} {p : ParseOut} {e : Err} {h : Err → Option Err}
    (env : List (String × String)) (sc : Bool)
    (hn : normalizeFlags a.flags p.supplied = none)
    (hc : checkCompletions a sc p.positional = false)
    (hp : p.err = some e) (hu : a.onUsageError = some h) :
    afterParse env a sc p = { res := h e, app := a, trace := [.onUsageError] ++ exitEv a } := by
  unfold afterParse
  rw [hn]
  simp only [hc, Bool.false_eq_true, if_false]
  rw [hp, hu]

theorem afterParse_incorrectUsage {a : App} {p : ParseOut} {e : Err}
    (env : List (String × String)) (sc : Bool)
    (hn : normalizeFlags a.flags p.supplied = none)
    (hc : checkCompletions a sc p.positional = false)
    (hp : p.err = some e) (hu : a.onUsageError = none) :
    afterParse env a sc p = { res := some e, app := a, trace := [.writeIncorrectUsage e] } := by
  unfold afterParse
  rw [hn]
  simp only [hc, Bool.false_eq_true, if_false]
  rw [hp, hu]

theorem afterParse_required {a : App} {p : ParseOut} {ce : Err}
    (env : List (String × String)) (sc : Bool)
    (hn : normalizeFlags a.flags p.supplied = none)
    (hc : checkCompletions a sc p.positional = false)
    (hp : p.err = none)
    (hr : checkRequiredFlags env a.flags p.supplied = some ce) :
    afterParse env a sc p = { res := some ce, app := a, trace := [] } := by
  unfold afterParse
  rw [hn]
  simp only [hc, Bool.false_eq_true, if_false]
  rw [hp, hr]

theorem afterParse_dispatch {a : App} {p : ParseOut}
    (env : List (String × String)) (sc : Bool)
    (hn : normalizeFlags a.flags p.supplied = none)
    (hc : checkCompletions a sc p.positional = false)
    (hp : p.err = none)
    (hr : checkRequiredFlags env a.flags p.supplied = none) :
    afterParse env a sc p = applyAfter a (runCore a p.positional) := by
  unfold afterParse
  rw [hn]
  simp only [hc, Bool.false_eq_true, if_false]
  rw [hp, hr]

theorem runCore_command {a : App} {pos : List String} {n : String} {rest : List String}
    {c : Command} (hb : a.before = none ∨ a.before = some none)
    (hpos : pos = n :: rest) (hc : a.command n = some c) :
    runCore a pos = (c.run, a, beforeTrace a ++ [.commandRun c.name]) := by
  unfold runCore
  rcases hb with hb | hb <;> rw [hb, hpos] <;> dsimp only <;> rw [hc]

theorem runCore_action {a : App} {pos : List String}
    (hb : a.before = none ∨ a.before = some none)
    (hcmd : ∀ n rest, pos = n :: rest → a.command n = none) :
    runCore a pos = runAction a (beforeTrace a) := by
  unfold runCore
  rcases hb with hb | hb <;> rw [hb] <;>
    (cases pos with
     | nil => rfl
     | cons n rest => dsimp only; rw [hcmd n rest rfl])

theorem after_notMem_exitEv (a : App) : Ev.after ∉ exitEv a := by
  unfold exitEv
  split <;> simp

theorem after_notMem_beforeTrace (a : App) : Ev.after ∉ beforeTrace a := by
  unfold beforeTrace
  split <;> simp

theorem after_notMem_runAction (a : App) (tr0 : List Ev) (h : Ev.after ∉ tr0) :
    Ev.after ∉ (runAction a tr0).2.2 := by
  unfold runAction
  cases ha : a.action <;>
    simp [List.mem_append, h, after_notMem_exitEv a]

theorem after_notMem_runCore (a : App) (pos : List String) :
    Ev.after ∉ (runCore a pos).2.2 := by
  unfold runCore
  rcases hb : a.before with _ | (_ | e)
  · dsimp only
    cases pos with
    | nil => exact after_notMem_runAction a _ (after_notMem_beforeTrace a)
    | cons n rest =>
      dsimp only
      cases hc : a.command n
      · exact after_notMem_runAction a _ (after_notMem_beforeTrace a)
      · simp [List.mem_append, after_notMem_beforeTrace a]
  · dsimp only
    cases pos with
    | nil => exact after_notMem_runAction a _ (after_notMem_beforeTrace a)
    | cons n rest =>
      dsimp only
      cases hc : a.command n
      · exact after_notMem_runAction a _ (after_notMem_beforeTrace a)
      · simp [List.mem_append, after_notMem_beforeTrace a]
  · simp [List.mem_append, after_notMem_exitEv a]

theorem runAction_app (a : App) (tr0 : List Ev) :
    (runAction a tr0).2.1.flags = a.flags ∧ (runAction a tr0).2.1.categories = a.categories ∧
    (runAction a tr0).2.1.commands = a.commands ∧
    (a.action.isSome = true → (runAction a tr0).2.1.action = a.action) := by
  unfold runAction
  cases ha : a.action <;> simp [ha]

theorem runCore_app (a : App) (pos : List String) :
    (runCore a pos).2.1.flags = a.flags ∧ (runCore a pos).2.1.categories = a.categories ∧
    (runCore a pos).2.1.commands = a.commands ∧
    (a.action.isSome = true → (runCore a pos).2.1.action = a.action) := by
  unfold runCore
  rcases hb : a.before with _ | (_ | e)
  · dsimp only
    cases pos with
    | nil => exact runAction_app a _
    | cons n rest =>
      dsimp only
      cases hc : a.command n
      · exact runAction_app a _
      · simp
  · dsimp only
    cases pos with
    | nil => exact runAction_app a _
    | cons n rest =>
      dsimp only
      cases hc : a.command n
      · exact runAction_app a _
      · simp
  · simp

theorem applyAfter_app (a : App) (r : Option Err × App × List Ev) :
    (applyAfter a r).app = r.2.1 := by
  obtain ⟨res, a2, tr⟩ := r
  unfold applyAfter
  cases a.after with
  | none => rfl
  | some afterRes => rfl

theorem afterParse_app (env : List (String × String)) (a : App) (sc : Bool) (p : ParseOut) :
    (afterParse env a sc p).app.flags = a.flags ∧
    (afterParse env a sc p).app.categories = a.categories ∧
    (afterParse env a sc p).app.commands = a.commands ∧
    (a.action.isSome = true → (afterParse env a sc p).app.action = a.action) := by
  unfold afterParse
  cases hn : normalizeFlags a.flags p.supplied
  · dsimp only
    by_cases hcp : checkCompletions a sc p.positional
    · simp [hcp]
    · simp only [hcp, Bool.false_eq_true, if_false]
      cases hp : p.err
      · dsimp only
        cases hr : checkRequiredFlags env a.flags p.supplied
        · dsimp only
          rw [applyAfter_app]
          exact runCore_app a p.positional
        · simp
      · cases hu : a.onUsageError <;> simp
  · simp


theorem eraseHelpName_stamp (hn : String) (c : Command) :
    eraseHelpName (stampHelpName hn c) = eraseHelpName c := by
  unfold stampHelpName eraseHelpName
  split <;> rfl

theorem command_congr {a b : App} (h : a.commands = b.commands) (n : String) :
    a.command n = b.command n := by
  unfold App.command
  rw [h]

theorem runAsSubcommand_app (env : List (String × String)) (a0 : App)
    (ctxArgs : List String) (sc : Bool) :
    (App.runAsSubcommand env a0 ctxArgs sc).app = subSetup a0 := by
  unfold App.runAsSubcommand
  dsimp only
  cases hn : normalizeFlags (subSetup a0).flags (parseArgs (subSetup a0).flags ctxArgs.tail).supplied
  · dsimp only
    by_cases hcp : checkCompletions (subSetup a0) sc
        (parseArgs (subSetup a0).flags ctxArgs.tail).positional
    · simp [hcp]
    · simp only [hcp, Bool.false_eq_true, if_false]
      cases hp : (parseArgs (subSetup a0).flags ctxArgs.tail).err
      · dsimp only
        split
        · rfl
        · cases hr : checkRequiredFlags env (subSetup a0).flags
              (parseArgs (subSetup a0).flags ctxArgs.tail).supplied <;> rfl
      · cases hu : (subSetup a0).onUsageError <;> rfl
  · rfl

theorem setup_commands_eq_inject {a : App} (h : a.didSetup = false) :
    a.setup.commands
      = (setupInjectHelp (setupStampNames (setupAuthors { a with didSetup := true }))).commands := by
  unfold App.setup
  simp only [h, Bool.false_eq_true, if_false, setupSteps]
  rw [setupCategories_commands, setupVersionFlag_commands, setupHideVersion_commands]

theorem setup_hideHelp (a : App) : a.setup.hideHelp = a.hideHelp := by
  unfold App.setup
  by_cases h : a.didSetup
  · simp [h]
  · simp only [h, Bool.false_eq_true, if_false, setupSteps, setupCategories_hideHelp,
      setupVersionFlag_hideHelp, setupHideVersion_hideHelp, setupInjectHelp_hideHelp,
      setupStampNames_hideHelp, setupAuthors_hideHelp]

theorem setupInjectHelp_help_isSome {Y : App} (hH : Y.hideHelp = false) :
    ((setupInjectHelp Y).command "help").isSome = true := by
  unfold setupInjectHelp
  by_cases hl : (Y.command "help").isNone = true
  · rw [if_pos (by simp [hl, hH])]
    rw [command_congr (appendFlag_commands _ _)]
    unfold App.command
    rw [List.find?_isSome]
    exact ⟨helpCommand, by simp, by decide⟩
  · rw [if_neg (by simp [hl])]
    cases ho : Y.command "help" with
    | none => rw [ho] at hl; simp at hl
    | some c => rfl

theorem setup_help_isSome {a : App} (hd : a.didSetup = false) (hH : a.hideHelp = false) :
    (a.setup.command "help").isSome = true := by
  rw [command_congr (setup_commands_eq_inject hd)]
  apply setupInjectHelp_help_isSome
  rw [setupStampNames_hideHelp, setupAuthors_hideHelp]
  exact hH

theorem subSetup_setup {a0 : App} (hd : a0.didSetup = false) :
    subSetup a0.setup
      = { a0.setup with
          commands := a0.setup.commands.map (stampHelpName a0.setup.helpName) } := by
  unfold subSetup
  by_cases hemp : a0.setup.commands.isEmpty = true
  · simp [hemp]
  · simp only [hemp, Bool.false_eq_true, if_false]
    by_cases hH : a0.setup.hideHelp = true
    · simp [hH]
    · have hH2 : a0.setup.hideHelp = false := by
        cases h : a0.setup.hideHelp
        · rfl
        · exact absurd h hH
      have hs := setup_help_isSome hd (by rw [setup_hideHelp] at hH2; exact hH2)
      have hnone : (a0.setup.command "help").isNone = false := by
        cases ho : a0.setup.command "help"
        · rw [ho] at hs; simp at hs
        · rfl
      simp [hnone]



theorem dedupSeen_spec : ∀ (l seen : List String),
    (dedupSeen seen l).Nodup ∧ ∀ x ∈ dedupSeen seen l, x ∉ seen := by
  intro l
  induction l with
  | nil => intro seen; exact ⟨List.nodup_nil, by intro x hx; simp [dedupSeen] at hx⟩
  | cons y ys ih =>
    intro seen
    unfold dedupSeen
    by_cases hy : y ∈ seen
    · simp only [hy, if_true]
      exact ih seen
    · simp only [hy, if_false]
      obtain ⟨hnd, hmem⟩ := ih (seen ++ [y])
      constructor
      · refine List.Nodup.cons ?_ hnd
        intro hyin
        exact hmem y hyin (by simp)
      · intro x hx
        rcases List.mem_cons.mp hx with rfl | hx2
        · exact hy
        · intro hxs
          exact hmem x hx2 (by simp [hxs])

theorem addCommand_names_mem {cats : List CommandCategory} {k : String} (c : Command)
    (h : k ∈ cats.map (fun cc => cc.name)) :
    (addCommand cats k c).map (fun cc => cc.name) = cats.map (fun cc => cc.name) := by
  induction cats with
  | nil => simp at h
  | cons cc rest ih =>
    unfold addCommand
    by_cases hc : cc.name = k
    · simp [hc]
    · simp only [hc, if_false]
      have h2 : k ∈ rest.map (fun cc => cc.name) := by
        rcases List.mem_cons.mp h with h3 | h3
        · exact absurd h3.symm hc
        · exact h3
      simp [ih h2]

theorem addCommand_eq_append {cats : List CommandCategory} {k : String} (c : Command)
    (h : k ∉ cats.map (fun cc => cc.name)) :
    addCommand cats k c = cats ++ [{ name := k, commands := [c] }] := by
  induction cats with
  | nil => rfl
  | cons cc rest ih =>
    unfold addCommand
    have hne : cc.name ≠ k := by
      intro hh
      exact h (by simp [hh])
    simp only [hne, if_false]
    have h2 : k ∉ rest.map (fun cc => cc.name) := by
      intro hh
      exact h (by simp [hh])
    rw [ih h2]
    rfl

theorem addCommand_mem_spec {cats : List CommandCategory} {k : String} {c : Command}
    (hnd : (cats.map (fun cc => cc.name)).Nodup) :
    ∀ cc' ∈ addCommand cats k c,
      (cc' ∈ cats ∧ cc'.name ≠ k)
      ∨ (∃ cc0, cc0 ∈ cats ∧ cc0.name = k
          ∧ cc' = { name := cc0.name, commands := cc0.commands ++ [c] })
      ∨ (cc' = { name := k, commands := [c] } ∧ k ∉ cats.map (fun cc => cc.name)) := by
  induction cats with
  | nil =>
    intro cc' h
    unfold addCommand at h
    rcases List.mem_singleton.mp h with rfl
    exact Or.inr (Or.inr ⟨rfl, by simp⟩)
  | cons cc rest ih =>
    intro cc' h
    have hndr : (rest.map (fun cc => cc.name)).Nodup := (List.nodup_cons.mp (by simpa using hnd)).2
    have hhead : cc.name ∉ rest.map (fun cc => cc.name) :=
      (List.nodup_cons.mp (by simpa using hnd)).1
    unfold addCommand at h
    by_cases hc : cc.name = k
    · simp only [hc, if_true] at h
      rcases List.mem_cons.mp h with rfl | h2
      · exact Or.inr (Or.inl ⟨cc, List.mem_cons_self cc rest, hc, by rw [hc]⟩)
      · refine Or.inl ⟨List.mem_cons_of_mem cc h2, ?_⟩
        intro hk
        apply hhead
        rw [hc, ← hk]
        exact List.mem_map.mpr ⟨cc', h2, rfl⟩
    · simp only [hc, if_false] at h
      rcases List.mem_cons.mp h with rfl | h2
      · exact Or.inl ⟨List.mem_cons_self cc' rest, hc⟩
      · rcases ih hndr cc' h2 with ⟨hm, hne⟩ | ⟨cc0, hm, he, heq⟩ | ⟨heq, hnm⟩
        · exact Or.inl ⟨List.mem_cons_of_mem cc hm, hne⟩
        · exact Or.inr (Or.inl ⟨cc0, List.mem_cons_of_mem cc hm, he, heq⟩)
        · refine Or.inr (Or.inr ⟨heq, ?_⟩)
          intro hin
          simp only [List.map_cons, List.mem_cons] at hin
          rcases hin with h3 | h3
          · exact hc h3.symm
          · exact hnm (List.mem_map.mpr (by simpa using h3))

theorem addCommand_names_nodup {cats : List CommandCategory} {k : String} (c : Command)
    (hnd : (cats.map (fun cc => cc.name)).Nodup) :
    ((addCommand cats k c).map (fun cc => cc.name)).Nodup := by
  by_cases h : k ∈ cats.map (fun cc => cc.name)
  · rw [addCommand_names_mem c h]
    exact hnd
  · rw [addCommand_eq_append c h]
    simp only [List.map_append, List.map_cons, List.map_nil]
    exact List.Nodup.append hnd (by simp) (by simp [List.disjoint_right, h])

theorem dedupSeen_cons_of_mem {seen : List String} {x : String} (xs : List String)
    (h : x ∈ seen) : dedupSeen seen (x :: xs) = dedupSeen seen xs := by
  simp only [dedupSeen, h, if_true]

theorem dedupSeen_cons_of_notMem {seen : List String} {x : String} (xs : List String)
    (h : x ∉ seen) : dedupSeen seen (x :: xs) = x :: dedupSeen (seen ++ [x]) xs := by
  simp only [dedupSeen, h, if_false]

theorem fold_names : ∀ (rest : List Command) (cats : List CommandCategory),
    (List.foldl (fun cs c => addCommand cs c.category c) cats rest).map (fun cc => cc.name)
      = cats.map (fun cc => cc.name)
        ++ dedupSeen (cats.map (fun cc => cc.name)) (rest.map (fun c => c.category)) := by
  intro rest
  induction rest with
  | nil => intro cats; simp [dedupSeen]
  | cons c rest' ih =>
    intro cats
    rw [List.foldl_cons, List.map_cons]
    by_cases hk : c.category ∈ cats.map (fun cc => cc.name)
    · rw [ih (addCommand cats c.category c), addCommand_names_mem c hk,
        dedupSeen_cons_of_mem _ hk]
    · rw [ih (addCommand cats c.category c), addCommand_eq_append c hk,
        dedupSeen_cons_of_notMem _ hk]
      simp [List.append_assoc]

theorem fold_contents : ∀ (rest : List Command) (cats : List CommandCategory)
    (processed : List Command),
    (cats.map (fun cc => cc.name)).Nodup →
    (∀ k, k ∈ cats.map (fun cc => cc.name) ↔ k ∈ processed.map (fun c => c.category)) →
    (∀ cc ∈ cats, cc.commands = processed.filter (fun c => c.category == cc.name)) →
    ∀ cc ∈ List.foldl (fun cs c => addCommand cs c.category c) cats rest,
      cc.commands = (processed ++ rest).filter (fun c => c.category == cc.name) := by
  intro rest
  induction rest with
  | nil =>
    intro cats processed hnd hmem hct
    simpa using hct
  | cons c rest' ih =>
    intro cats processed hnd hmem hct
    rw [List.foldl_cons]
    have hnd' := addCommand_names_nodup (k := c.category) c hnd
    have hmem' : ∀ k, k ∈ (addCommand cats c.category c).map (fun cc => cc.name)
        ↔ k ∈ (processed ++ [c]).map (fun d => d.category) := by
      intro k
      by_cases hk : c.category ∈ cats.map (fun cc => cc.name)
      · rw [addCommand_names_mem c hk]
        simp only [List.map_append, List.mem_append, List.map_cons, List.map_nil,
          List.mem_singleton, List.not_mem_nil, or_false]
        constructor
        · intro h
          exact Or.inl ((hmem k).mp h)
        · rintro (h | rfl)
          · exact (hmem k).mpr h
          · exact hk
      · rw [addCommand_eq_append c hk]
        simp [hmem k]
    have hct' : ∀ cc ∈ addCommand cats c.category c,
        cc.commands = (processed ++ [c]).filter (fun d => d.category == cc.name) := by
      intro cc' hcc'
      rcases addCommand_mem_spec hnd cc' hcc' with ⟨hm, hne⟩ | ⟨cc0, hm, he, heq⟩ | ⟨heq, hnm⟩
      · rw [hct cc' hm, List.filter_append]
        have hfalse : (c.category == cc'.name) = false :=
          beq_eq_false_iff_ne.mpr (fun h => hne h.symm)
        simp [List.filter_cons, hfalse]
      · subst heq
        dsimp only
        rw [List.filter_append, ← hct cc0 hm]
        simp [he]
      · subst heq
        dsimp only
        have h1 : processed.filter (fun d => d.category == c.category) = [] := by
          rw [List.filter_eq_nil_iff]
          intro d hd
          simp only [beq_iff_eq]
          intro hdc
          exact hnm ((hmem c.category).mpr (List.mem_map.mpr ⟨d, hd, hdc⟩))
        simp [List.filter_append, h1]
    intro cc hcc
    rw [ih (addCommand cats c.category c) (processed ++ [c]) hnd' hmem' hct' cc hcc]
    simp [List.append_assoc]


theorem applyAfter_of_some {a : App} {afterRes : Option Err} (res : Option Err)
    (a2 : App) (tr : List Ev) (ha : a.after = some afterRes) :
    applyAfter a (res, a2, tr)
      = { res := shadowRes res afterRes, app := a2, trace := tr ++ [Ev.after] } := by
  unfold applyAfter
  dsimp only
  rw [ha]
  rfl

theorem applyAfter_of_none {a : App} (res : Option Err) (a2 : App) (tr : List Ev)
    (ha : a.after = none) :
    applyAfter a (res, a2, tr) = { res := res, app := a2, trace := tr } := by
  unfold applyAfter
  rw [ha]



/-- C1, counterexample: on `cexC1App` with arguments `[prog]` the required
flag `r` is missing, Run returns the RequiredFlagMissing error, and the
registered After hook is invoked zero times — not exactly once as the claim
states for the failed-validation case. -/
theorem C1_after_skipped_on_required_failure_cex :
    cexC1App.after = some none
    ∧ (App.run [] cexC1App ["prog"]).map (fun o => (o.res, o.trace.count Ev.after))
        = some (some (.requiredFlagMissing ["r"]), 0) := by
  constructor
  · rfl
  · decide

/-- C1 (amended): the After hook, when registered, is invoked exactly once
per Run call that passes flag normalization, the completion check, the
usage-error check and the required-flag check — regardless of whether
Before, the matched Command, or the Action then errors or completes; runs
that stop at one of those earlier checks (in particular required-flag
validation) do not invoke it. -/
theorem C1_after_runs_exactly_once (env : List (String × String)) (a : App)
    (args : List String) (sc : Bool) (stripped : List String) (afterRes : Option Err)
    (h0 : args ≠ [])
    (h1 : checkShellCompleteFlag a.setup args = some (sc, stripped))
    (hn : normalizeFlags a.setup.flags
        (parseArgs a.setup.flags (stripped.drop 1)).supplied = none)
    (hc : checkCompletions a.setup sc
        (parseArgs a.setup.flags (stripped.drop 1)).positional = false)
    (hp : (parseArgs a.setup.flags (stripped.drop 1)).err = none)
    (hr : checkRequiredFlags env a.setup.flags
        (parseArgs a.setup.flags (stripped.drop 1)).supplied = none)
    (ha : a.setup.after = some afterRes) :
    (App.run env a args).map (fun o => o.trace.count Ev.after) = some 1 := by
  rw [run_eq_afterParse env a args sc stripped h0 h1,
    afterParse_dispatch env sc hn hc hp hr]
  rcases hrc : runCore a.setup (parseArgs a.setup.flags (stripped.drop 1)).positional
    with ⟨res, a2, tr⟩
  have hmem : Ev.after ∉ tr := by
    have h := after_notMem_runCore a.setup
      (parseArgs a.setup.flags (stripped.drop 1)).positional
    rw [hrc] at h
    exact h
  unfold applyAfter
  rw [ha]
  simp [List.count_append, List.count_eq_zero.mpr hmem]

/-- C1, witness: a run of `witC1App` that reaches dispatch invokes the
After hook exactly once. -/
theorem C1_after_runs_exactly_once_witness :
    (App.run [] witC1App ["prog"]).map (fun o => o.trace.count Ev.after) = some 1 :=
  C1_after_runs_exactly_once [] witC1App ["prog"] false ["prog"] none (by decide)
    (by decide) (by decide) (by decide) (by decide) (by decide) (by decide)

/-- C3: when dispatch reaches the default Action with an After hook
registered, the returned error is the Action's error whenever the Action
fails, the After hook's result becomes the returned error exactly when the
Action returned nil, and the After hook runs exactly once in both cases. -/
theorem C3_action_error_precedence (env : List (String × String)) (a : App)
    (args : List String) (sc : Bool) (stripped : List String)
    (act : Action) (afterRes : Option Err)
    (h0 : args ≠ [])
    (h1 : checkShellCompleteFlag a.setup args = some (sc, stripped))
    (hn : normalizeFlags a.setup.flags
        (parseArgs a.setup.flags (stripped.drop 1)).supplied = none)
    (hc : checkCompletions a.setup sc
        (parseArgs a.setup.flags (stripped.drop 1)).positional = false)
    (hp : (parseArgs a.setup.flags (stripped.drop 1)).err = none)
    (hr : checkRequiredFlags env a.setup.flags
        (parseArgs a.setup.flags (stripped.drop 1)).supplied = none)
    (hb : a.setup.before = none ∨ a.setup.before = some none)
    (hcmd : ∀ n rest, (parseArgs a.setup.flags (stripped.drop 1)).positional = n :: rest →
        a.setup.command n = none)
    (hact : a.setup.action = some act)
    (ha : a.setup.after = some afterRes) :
    (App.run env a args).map (fun o => (o.res, o.trace.count Ev.after))
      = some (shadowRes (handleAction act) afterRes, 1) := by
  rw [run_eq_afterParse env a args sc stripped h0 h1,
    afterParse_dispatch env sc hn hc hp hr, runCore_action hb hcmd]
  unfold runAction
  rw [hact]
  dsimp only
  rw [applyAfter_of_some _ _ _ ha]
  have hm1 : Ev.after ∉ beforeTrace a.setup := after_notMem_beforeTrace _
  have hm2 : Ev.after ∉ exitEv a.setup := after_notMem_exitEv _
  simp [List.count_append, List.count_eq_zero.mpr hm1, List.count_eq_zero.mpr hm2]


/-- C3, witness: with both the Action and the After hook failing, Run
reports the Action's error and runs After once. -/
theorem C3_action_error_precedence_witness :
    (App.run [] witC3App ["prog"]).map (fun o => (o.res, o.trace.count Ev.after))
      = some (some (.userErr "act"), 1) := by
  have hpos : (parseArgs witC3App.setup.flags (List.drop 1 ["prog"])).positional = [] := by
    decide
  exact C3_action_error_precedence [] witC3App ["prog"] false ["prog"]
    (.actionFunc (some (.userErr "act"))) (some (.userErr "aft")) (by decide) (by decide)
    (by decide) (by decide) (by decide) (by decide) (by decide)
    (fun n rest h => List.noConfusion (hpos ▸ h)) (by decide) (by decide)

/-- C4: a required flag satisfied neither by a CLI token nor by its
declared environment variable makes Run return the RequiredFlagMissing
error naming it, with neither the Before hook nor the Action invoked. -/
theorem C4_required_flag_missing (env : List (String × String)) (a : App)
    (args : List String) (sc : Bool) (stripped : List String) (f : Flag)
    (h0 : args ≠ [])
    (h1 : checkShellCompleteFlag a.setup args = some (sc, stripped))
    (hn : normalizeFlags a.setup.flags
        (parseArgs a.setup.flags (stripped.drop 1)).supplied = none)
    (hc : checkCompletions a.setup sc
        (parseArgs a.setup.flags (stripped.drop 1)).positional = false)
    (hp : (parseArgs a.setup.flags (stripped.drop 1)).err = none)
    (hf : f ∈ a.setup.flags) (hreq : f.required = true)
    (hsat : flagSatisfied env (parseArgs a.setup.flags (stripped.drop 1)).supplied f
        = false) :
    (App.run env a args).map
        (fun o => (o.res, o.trace.count Ev.before, o.trace.count Ev.action))
      = some (some (.requiredFlagMissing (missingRequired env a.setup.flags
          (parseArgs a.setup.flags (stripped.drop 1)).supplied)), 0, 0)
    ∧ canonicalName f ∈ missingRequired env a.setup.flags
        (parseArgs a.setup.flags (stripped.drop 1)).supplied := by
  have hmem : canonicalName f ∈ missingRequired env a.setup.flags
      (parseArgs a.setup.flags (stripped.drop 1)).supplied := by
    unfold missingRequired
    exact List.mem_map.mpr ⟨f, List.mem_filter.mpr ⟨hf, by rw [hreq, hsat]; rfl⟩, rfl⟩
  have hck : checkRequiredFlags env a.setup.flags
      (parseArgs a.setup.flags (stripped.drop 1)).supplied
      = some (.requiredFlagMissing (missingRequired env a.setup.flags
          (parseArgs a.setup.flags (stripped.drop 1)).supplied)) := by
    unfold checkRequiredFlags
    have hne : (missingRequired env a.setup.flags
        (parseArgs a.setup.flags (stripped.drop 1)).supplied).isEmpty = false := by
      rw [List.isEmpty_eq_false]
      exact List.ne_nil_of_mem hmem
    simp only [hne, Bool.false_eq_true, if_false]
  refine ⟨?_, hmem⟩
  rw [run_eq_afterParse env a args sc stripped h0 h1,
    afterParse_required env sc hn hc hp hck]
  simp



/-- C4, witness: with `laddr` supplied neither on the command line nor via
`GIN_LADDR`, Run fails with RequiredFlagMissing naming `laddr` and invokes
neither Before nor the Action. -/
theorem C4_required_flag_missing_witness :
    (App.run [] witC4App ["prog"]).map
        (fun o => (o.res, o.trace.count Ev.before, o.trace.count Ev.action))
      = some (some (.requiredFlagMissing (missingRequired [] witC4App.setup.flags
          (parseArgs witC4App.setup.flags (List.drop 1 ["prog"])).supplied)), 0, 0)
    ∧ canonicalName witC4Flag
        ∈ missingRequired [] witC4App.setup.flags
            (parseArgs witC4App.setup.flags (List.drop 1 ["prog"])).supplied :=
  C4_required_flag_missing [] witC4App ["prog"] false ["prog"] witC4Flag
    (by decide) (by decide) (by decide) (by decide) (by decide) (by decide) (by decide)
    (by decide)


/-- C5, counterexample: looking up `x` on `cexC5App` returns the earlier
command `a`, which merely has `x` as an alias, not the later command whose
primary name is `x` — command resolution does not prefer primary names
over earlier aliases. -/
theorem C5_alias_beats_later_primary_cex :
    (cexC5App.command "x").map (fun c => c.name) = some "a"
    ∧ cexC5App.commands.map (fun c => c.name) = ["a", "x"] := by
  decide

/-- C5 (amended): command resolution returns the first command in
declaration order whose primary name, short name or aliases contain the
queried string; an earlier command matching only by alias therefore wins
over a later command whose primary name matches. -/
theorem C5_first_structural_match_wins (a : App) (n : String) (pre : List Command)
    (c : Command) (post : List Command)
    (hsplit : a.commands = pre ++ c :: post)
    (hpre : ∀ d ∈ pre, d.hasName n = false)
    (hc : c.hasName n = true) :
    a.command n = some c := by
  unfold App.command
  rw [hsplit]
  clear hsplit
  revert hpre
  induction pre with
  | nil =>
    intro _
    exact List.find?_cons_of_pos _ hc
  | cons d ds ih =>
    intro hpre
    have hd : d.hasName n = false := hpre d (List.mem_cons_self d ds)
    rw [List.cons_append, List.find?_cons_of_neg _ (by simp [hd])]
    exact ih (fun d' hd' => hpre d' (List.mem_cons_of_mem d hd'))

/-- C5, witness: on `cexC5App`, resolution of `x` returns the first
declared command holding the name. -/
theorem C5_first_structural_match_wins_witness :
    cexC5App.command "x" = some { name := "a", aliases := ["x"] } :=
  C5_first_structural_match_wins cexC5App "x" [] { name := "a", aliases := ["x"] }
    [{ name := "x" }] rfl (fun d hd => absurd hd (List.not_mem_nil d)) (by decide)

/-- C6: setup is idempotent — running it a second time leaves the Command
list, the Flag Specification list and the Category Index (indeed the whole
App) unchanged. -/
theorem C6_setup_idempotent (a : App) :
    a.setup.setup.commands = a.setup.commands
    ∧ a.setup.setup.flags = a.setup.flags
    ∧ a.setup.setup.categories = a.setup.categories := by
  rw [setup_idem a]
  exact ⟨rfl, rfl, rfl⟩

/-- C10: Run is not total on the empty argument vector — with completion
enabled checkShellCompleteFlag indexes the last element of an empty slice,
and in any case Run slices off the program name; the model returns `none`
where the Go code panics. -/
theorem C10_run_empty_vector (env : List (String × String)) (a : App) :
    App.run env a [] = none := by
  unfold App.run
  dsimp only
  cases hcs : checkShellCompleteFlag a.setup [] with
  | none => rfl
  | some pr => rfl

/-- C7: in completion mode, when the first positional argument matches no
declared command, Run emits the completion suggestions and returns nil
without invoking Before, the Action or any command; when it does match a
known command, dispatch proceeds into that command (exactly one commandRun
event and no Action). -/
theorem C7_completion_dispatch (env : List (String × String)) (a : App)
    (args : List String) (stripped : List String)
    (h0 : args ≠ [])
    (h1 : checkShellCompleteFlag a.setup args = some (true, stripped))
    (hn : normalizeFlags a.setup.flags
        (parseArgs a.setup.flags (stripped.drop 1)).supplied = none)
    (hbc : a.setup.bashComplete = true) :
    (∀ n rest, (parseArgs a.setup.flags (stripped.drop 1)).positional = n :: rest →
        a.setup.command n = none →
        App.run env a args
          = some { res := none, app := a.setup, trace := [Ev.emitCompletions] })
    ∧ (∀ n rest c, (parseArgs a.setup.flags (stripped.drop 1)).positional = n :: rest →
        a.setup.command n = some c →
        (parseArgs a.setup.flags (stripped.drop 1)).err = none →
        checkRequiredFlags env a.setup.flags
            (parseArgs a.setup.flags (stripped.drop 1)).supplied = none →
        (a.setup.before = none ∨ a.setup.before = some none) →
        (App.run env a args).map
            (fun o => (o.trace.count (Ev.commandRun c.name), o.trace.count Ev.action))
          = some (1, 0)) := by
  constructor
  · intro n rest hpos hcmd
    have hcomp : checkCompletions a.setup true
        (parseArgs a.setup.flags (stripped.drop 1)).positional = true := by
      unfold checkCompletions
      rw [hpos]
      simp [hcmd]
    rw [run_eq_afterParse env a args true stripped h0 h1,
      afterParse_completion env true hn hcomp]
    unfold completionTrace
    rw [hbc]
    rfl
  · intro n rest c hpos hcmd hp hr hb
    have hcomp : checkCompletions a.setup true
        (parseArgs a.setup.flags (stripped.drop 1)).positional = false := by
      unfold checkCompletions
      rw [hpos]
      simp [hcmd]
    rw [run_eq_afterParse env a args true stripped h0 h1,
      afterParse_dispatch env true hn hcomp hp hr, runCore_command hb hpos hcmd]
    have hm1 : Ev.commandRun c.name ∉ beforeTrace a.setup := by
      unfold beforeTrace
      split <;> simp
    have hm2 : Ev.action ∉ beforeTrace a.setup := by
      unfold beforeTrace
      split <;> simp
    cases ha : a.setup.after with
    | none =>
      rw [applyAfter_of_none _ _ _ ha]
      simp [List.count_append, List.count_eq_zero.mpr hm1, List.count_eq_zero.mpr hm2]
    | some afterRes =>
      rw [applyAfter_of_some _ _ _ ha]
      simp [List.count_append, List.count_eq_zero.mpr hm1, List.count_eq_zero.mpr hm2]


/-- C7, witness: `prog nosuch --generate-bash-completion` emits suggestions
and returns nil; `prog run --generate-bash-completion` dispatches into the
`run` command instead. -/
theorem C7_completion_dispatch_witness :
    App.run [] witC7App ["prog", "nosuch", "--generate-bash-completion"]
      = some { res := none, app := witC7App.setup, trace := [Ev.emitCompletions] }
    ∧ (App.run [] witC7App ["prog", "run", "--generate-bash-completion"]).map
        (fun o => (o.trace.count (Ev.commandRun "run"), o.trace.count Ev.action))
      = some (1, 0) := by
  constructor
  · exact (C7_completion_dispatch [] witC7App ["prog", "nosuch", "--generate-bash-completion"]
      ["prog", "nosuch"] (by decide) (by decide) (by decide) (by decide)).1
      "nosuch" [] (by decide) (by decide)
  · exact (C7_completion_dispatch [] witC7App ["prog", "run", "--generate-bash-completion"]
      ["prog", "run"] (by decide) (by decide) (by decide) (by decide)).2
      "run" [] { name := "run", shortName := "r", helpName := " run" } (by decide)
      (by decide) (by decide) (by decide) (by decide)

/-- C8: a flag-normalization failure is written directly to the output
sink and returned by Run with the OnUsageError hook not invoked, whereas a
parse error with a registered OnUsageError hook is routed through the
hook. -/
theorem C8_normalize_error_direct (env : List (String × String)) (a : App)
    (args : List String) (sc : Bool) (stripped : List String)
    (h0 : args ≠ [])
    (h1 : checkShellCompleteFlag a.setup args = some (sc, stripped)) :
    (∀ e, normalizeFlags a.setup.flags
        (parseArgs a.setup.flags (stripped.drop 1)).supplied = some e →
        App.run env a args
          = some { res := some e, app := a.setup, trace := [Ev.writeErr e] })
    ∧ (∀ e h, normalizeFlags a.setup.flags
        (parseArgs a.setup.flags (stripped.drop 1)).supplied = none →
        checkCompletions a.setup sc
            (parseArgs a.setup.flags (stripped.drop 1)).positional = false →
        (parseArgs a.setup.flags (stripped.drop 1)).err = some e →
        a.setup.onUsageError = some h →
        App.run env a args
          = some { res := h e, app := a.setup,
                   trace := [Ev.onUsageError] ++ exitEv a.setup }) := by
  constructor
  · intro e hn
    rw [run_eq_afterParse env a args sc stripped h0 h1, afterParse_normErr env sc hn]
  · intro e h hn hc hp hu
    rw [run_eq_afterParse env a args sc stripped h0 h1,
      afterParse_usageHook env sc hn hc hp hu]


/-- C8, witness: supplying both forms of `port` fails normalization — the
error is written to the sink and returned with no OnUsageError event even
though the hook is registered; an unknown flag instead goes through the
hook. -/
theorem C8_normalize_error_direct_witness :
    App.run [] witC8App ["prog", "--port=1", "-p=2"]
      = some { res := some (.normalizeConflict "port"), app := witC8App.setup,
               trace := [Ev.writeErr (.normalizeConflict "port")] }
    ∧ App.run [] witC8App ["prog", "--bogus"]
      = some { res := some (.flagParse "--bogus"), app := witC8App.setup,
               trace := [Ev.onUsageError] ++ exitEv witC8App.setup } := by
  constructor
  · exact (C8_normalize_error_direct [] witC8App ["prog", "--port=1", "-p=2"] false
      ["prog", "--port=1", "-p=2"] (by decide) (by decide)).1 (.normalizeConflict "port")
      (by decide)
  · exact (C8_normalize_error_direct [] witC8App ["prog", "--bogus"] false
      ["prog", "--bogus"] (by decide) (by decide)).2 (.flagParse "--bogus")
      (fun e => some e) (by decide) (by decide) (by decide) rfl


/-- C2, counterexample: dispatching a set-up App with a nil Action makes
Run write the help action into the Action field — dispatch does mutate
Application state after setup. -/
theorem C2_run_mutates_nil_action_cex :
    (App.setup cexC2App).action = none
    ∧ (App.run [] (App.setup cexC2App) ["prog"]).map (fun o => o.app.action)
        = some (some helpCommandAction) := by
  constructor
  · rfl
  · decide

/-- C2 (amended): on a set-up App, dispatch leaves the Flags list and the
Category Index unchanged on every path; Run also leaves the Commands list
unchanged and preserves the Action field whenever one is configured (it
mutates it only when nil); runAsSubcommand preserves the Action field and
changes the Commands list at most by stamping empty help names (the help
command injected by setup). -/
theorem C2_dispatch_frame (env : List (String × String)) (a0 : App)
    (hd : a0.didSetup = false) :
    (∀ args out, App.run env a0.setup args = some out →
        out.app.flags = a0.setup.flags ∧ out.app.categories = a0.setup.categories ∧
        out.app.commands = a0.setup.commands ∧
        (a0.setup.action.isSome = true → out.app.action = a0.setup.action))
    ∧ (∀ ctxArgs sc,
        (App.runAsSubcommand env a0.setup ctxArgs sc).app.flags = a0.setup.flags ∧
        (App.runAsSubcommand env a0.setup ctxArgs sc).app.categories
          = a0.setup.categories ∧
        (App.runAsSubcommand env a0.setup ctxArgs sc).app.action = a0.setup.action ∧
        (App.runAsSubcommand env a0.setup ctxArgs sc).app.commands.map eraseHelpName
          = a0.setup.commands.map eraseHelpName) := by
  constructor
  · intro args out hrun
    unfold App.run at hrun
    dsimp only at hrun
    rw [setup_idem a0] at hrun
    cases hcs : checkShellCompleteFlag a0.setup args with
    | none =>
      rw [hcs] at hrun
      exact absurd hrun (by simp)
    | some pr =>
      obtain ⟨sc, stripped⟩ := pr
      rw [hcs] at hrun
      dsimp only at hrun
      by_cases hemp : args.isEmpty = true
      · rw [if_pos hemp] at hrun
        exact absurd hrun (by simp)
      · rw [if_neg hemp] at hrun
        have hout := Option.some.inj hrun
        rw [← hout]
        exact afterParse_app env a0.setup sc (parseArgs a0.setup.flags (stripped.drop 1))
  · intro ctxArgs sc
    rw [runAsSubcommand_app env a0.setup ctxArgs sc, subSetup_setup hd]
    refine ⟨rfl, rfl, rfl, ?_⟩
    dsimp only
    rw [List.map_map]
    have hcomp : eraseHelpName ∘ stampHelpName a0.setup.helpName = eraseHelpName :=
      funext fun c => eraseHelpName_stamp _ c
    rw [hcomp]



/-- C2, witness: a Run and a runAsSubcommand on the set-up `witC2App`
preserve its Flags, Category Index, Commands (up to help-name stamping for
the subcommand path) and its configured Action. -/
theorem C2_dispatch_frame_witness :
    (witC2Out.app.flags = witC2App.setup.flags ∧
      witC2Out.app.categories = witC2App.setup.categories ∧
      witC2Out.app.commands = witC2App.setup.commands ∧
      (witC2App.setup.action.isSome = true → witC2Out.app.action = witC2App.setup.action))
    ∧ ((App.runAsSubcommand [] witC2App.setup ["sub"] false).app.flags
          = witC2App.setup.flags ∧
        (App.runAsSubcommand [] witC2App.setup ["sub"] false).app.categories
          = witC2App.setup.categories ∧
        (App.runAsSubcommand [] witC2App.setup ["sub"] false).app.action
          = witC2App.setup.action ∧
        (App.runAsSubcommand [] witC2App.setup ["sub"] false).app.commands.map eraseHelpName
          = witC2App.setup.commands.map eraseHelpName) :=
  ⟨(C2_dispatch_frame [] witC2App rfl).1 ["prog"] witC2Out rfl,
   (C2_dispatch_frame [] witC2App rfl).2 ["sub"] false⟩

/-- C9: after setup the Category Index is sorted by category name, its
names are exactly the distinct category names of the command list (first
occurrences, one per distinct name), each category lists the commands of
that category in command-list order, and before sorting the index lists
categories in order of first occurrence. -/
theorem C9_category_index (a : App) (hd : a.didSetup = false) :
    List.Sorted catLe a.setup.categories
    ∧ (a.setup.categories.map (fun cc => cc.name)).Perm
        (dedupKeepFirst (a.setup.commands.map (fun c => c.category)))
    ∧ (∀ cc ∈ a.setup.categories,
        cc.commands = a.setup.commands.filter (fun c => c.category == cc.name))
    ∧ (buildCategories a.setup.commands).map (fun cc => cc.name)
        = dedupKeepFirst (a.setup.commands.map (fun c => c.category)) := by
  have hb : (buildCategories a.setup.commands).map (fun cc => cc.name)
      = dedupKeepFirst (a.setup.commands.map (fun c => c.category)) := by
    unfold buildCategories dedupKeepFirst
    have := fold_names a.setup.commands []
    simpa using this
  have hcontents : ∀ cc ∈ buildCategories a.setup.commands,
      cc.commands = a.setup.commands.filter (fun c => c.category == cc.name) := by
    intro cc hcc
    have h := fold_contents a.setup.commands [] [] (by simp) (by simp) (by simp) cc
      (by unfold buildCategories at hcc; exact hcc)
    simpa using h
  refine ⟨?_, ?_, ?_, hb⟩
  · rw [setup_categories_eq hd]
    exact List.sorted_insertionSort catLe _
  · rw [setup_categories_eq hd]
    have hp := (List.perm_insertionSort catLe (buildCategories a.setup.commands)).map
      (fun cc => cc.name)
    rw [hb] at hp
    exact hp
  · intro cc hcc
    rw [setup_categories_eq hd] at hcc
    exact hcontents cc ((List.mem_insertionSort catLe).mp hcc)


/-- C9, witness: the category index of the set-up `witC9App` is sorted,
carries one category per distinct category name, and lists each category's
commands in declaration order. -/
theorem C9_category_index_witness :
    List.Sorted catLe witC9App.setup.categories
    ∧ (witC9App.setup.categories.map (fun cc => cc.name)).Perm
        (dedupKeepFirst (witC9App.setup.commands.map (fun c => c.category)))
    ∧ (∀ cc ∈ witC9App.setup.categories,
        cc.commands = witC9App.setup.commands.filter (fun c => c.category == cc.name))
    ∧ (buildCategories witC9App.setup.commands).map (fun cc => cc.name)
        = dedupKeepFirst (witC9App.setup.commands.map (fun c => c.category)) :=
  C9_category_index witC9App rfl

end Gin
